import Mathlib

/-!
String<Len> of RRFLibraries (src/General/StringRef.h)

A shallow embedding of the fixed-capacity string buffer `String<Len>` and of the
operations defined in the header: the constructor, `strlen`, `IsEmpty`, `IsFull`,
`EndsWith`, `Clear`, `EnsureNullTerminated`, `CopyAndPad`, `ConstantTimeEquals`,
`Truncate`, `Erase`, `Equals`, `Contains`.

* A `char` is a byte, `Fin 256`; the bitwise operators of `Fin 256` reduce modulo 256,
  which is the conversion back to `char` after integer promotion.
* The memory of a `String<Len>` is a map from offsets (relative to `storage`) to bytes.
  The array `storage[Len + 1]` is the offsets `0 .. Len`; larger offsets are the memory
  that follows the object, so that a write past the end of the array can be observed.
* `size_t` has `w` bits: sums of `size_t` values are reduced modulo `2 ^ w`.
* Loops run on fuel and return `none` when the fuel runs out; the fuel handed to each loop
  is shown to suffice.
-/

namespace RRF

/-- A `char`, as its byte value. -/
abbrev Byte := Fin 256

/-- Memory seen from `storage`: offsets `0 .. Len` are the array `char storage[Len + 1]`. -/
abbrev Storage := Nat → Byte

/-- The assignment `storage[i] = v`. -/
def write (st : Storage) (i : Nat) (v : Byte) : Storage :=
  fun j => if j = i then v else st j

/-- A storage whose first bytes are those of `l`, every later byte being zero. -/
def ofList (l : List Byte) : Storage :=
  fun i => l.getD i 0

/-- The string that a `const char *` points to: the bytes in front of the first zero
byte. The end of the list stands for a terminator. -/
def cstr (m : List Byte) : List Byte :=
  m.takeWhile (fun c => c ≠ 0)

/-- Modelled from the spec: `Strnlen` (Strnlen.h is not among the sources), the length
"computed by scanning for the terminator but never scanning past" the bound: the loop
looks at the byte at offset `i` while `n` bytes remain to be scanned. -/
def StrnlenFrom (st : Storage) : Nat → Nat → Nat
  | 0, i => i
  | n + 1, i => if st i = 0 then i else StrnlenFrom st n (i + 1)

/-- Modelled from the spec: `Strnlen(s, n)` (Strnlen.h is not among the sources): the
offset of the first zero byte among the first `n` bytes, or `n` when there is none. -/
def Strnlen (st : Storage) (n : Nat) : Nat :=
  StrnlenFrom st n 0

/-- The member `strlen()`: `Strnlen(storage, Len)`. -/
def strlen (Len : Nat) (st : Storage) : Nat :=
  Strnlen st Len

/-- The content of the buffer: the `strlen()` bytes in front of the terminator. -/
def content (Len : Nat) (st : Storage) : List Byte :=
  (List.range (strlen Len st)).map st

/-- The string read through `c_str()` by the C library: the bytes of the array in front
of its first zero byte. For a storage with no zero byte in the array the C code reads
past the array; the model stops at its end. -/
def c_str (Len : Nat) (st : Storage) : List Byte :=
  ((List.range (Len + 1)).map st).takeWhile (fun c => c ≠ 0)

/-- The constructor `String() { storage[0] = 0; }`, run over memory holding `st`. -/
def construct (st : Storage) : Storage :=
  write st 0 0

/-- The member `IsEmpty()`: `storage[0] == 0`. -/
def IsEmpty (st : Storage) : Bool :=
  st 0 == 0

/-- The member `Clear()`: `storage[0] = 0`. -/
def Clear (st : Storage) : Storage :=
  write st 0 0

/-- The member `EnsureNullTerminated()`: `storage[Len] = 0`. -/
def EnsureNullTerminated (Len : Nat) (st : Storage) : Storage :=
  write st Len 0

/-- The C library call `memset(storage, v, n)`: the first `n` bytes become `v`. -/
def memset (st : Storage) (v : Byte) (n : Nat) : Storage :=
  fun i => if i < n then v else st i

/-- Modelled from the spec: `copy(src)` (`StringRef::copy`, StringRef.cpp is not among
the sources) "replaces entire content with up to `min(len(src), maxlen, Capacity())`
bytes, terminator always written; returns true iff `src` was longer than what fit":
the first `min(len(src), Len)` bytes of `src` go to offset 0, a terminator follows them,
and no other byte is touched. -/
def copy (Len : Nat) (st : Storage) (src : List Byte) : Storage × Bool :=
  let n := min (cstr src).length Len
  (fun i => if i < n then (cstr src).getD i 0 else if i = n then 0 else st i,
   decide (Len < (cstr src).length))

/-- The member `CopyAndPad(src)`: `memset(storage, 0, Len + 1); copy(src);`. -/
def CopyAndPad (Len : Nat) (st : Storage) (src : List Byte) : Storage :=
  (copy Len (memset st 0 (Len + 1)) src).1

/-- The loop of `ConstantTimeEquals`, `for (size_t i = 0; i < Len; ++i)` with body
`rslt |= (storage[i] ^ other.storage[i]);`, from the state `(i, rslt)`; `steps` counts
the executions of the body. The result is the final `rslt` and the count. -/
def ConstantTimeEqualsLoop (Len : Nat) (a b : Storage) :
    Nat → Nat → Byte → Nat → Option (Byte × Nat)
  | fuel, i, rslt, steps =>
    if i < Len then
      match fuel with
      | 0 => none
      | fuel + 1 =>
        ConstantTimeEqualsLoop Len a b fuel (i + 1) (rslt ||| (a i ^^^ b i)) (steps + 1)
    else some (rslt, steps)

/-- A run of `ConstantTimeEquals`: `char rslt = 0;`, then the loop from `i = 0`. The
result is the final `rslt` with the number of byte comparisons made. -/
def ConstantTimeEqualsRun (Len : Nat) (a b : Storage) : Option (Byte × Nat) :=
  ConstantTimeEqualsLoop Len a b Len 0 0 0

/-- The member `ConstantTimeEquals(other)`: `return rslt == 0;` after the loop. -/
def ConstantTimeEquals (Len : Nat) (a b : Storage) : Option Bool :=
  (ConstantTimeEqualsRun Len a b).map (fun r => r.1 == 0)

/-- The number of byte comparisons that `ConstantTimeEquals(other)` makes. -/
def ConstantTimeEqualsSteps (Len : Nat) (a b : Storage) : Option Nat :=
  (ConstantTimeEqualsRun Len a b).map (fun r => r.2)

/-- A run of `Truncate(len)`: `if (len < Len) { storage[len] = 0; }`. The result is the
storage with the list of the offsets written. -/
def TruncateRun (Len : Nat) (st : Storage) (len : Nat) : Storage × List Nat :=
  if len < Len then (write st len 0, [len]) else (st, [])

/-- The member `Truncate(len)`. -/
def Truncate (Len : Nat) (st : Storage) (len : Nat) : Storage :=
  (TruncateRun Len st len).1

/-- The loop of `Erase`, `while (pos + count < len)` with body
`storage[pos] = storage[pos + count]; ++pos;`, from the state `(storage, pos)`;
`ws` collects the offsets written. The sums are `size_t` sums, modulo `2 ^ w`. -/
def EraseLoop (w count len : Nat) :
    Nat → Storage → Nat → List Nat → Option (Storage × Nat × List Nat)
  | fuel, st, pos, ws =>
    if (pos + count) % 2 ^ w < len then
      match fuel with
      | 0 => none
      | fuel + 1 =>
        EraseLoop w count len fuel
          (write st pos (st ((pos + count) % 2 ^ w))) ((pos + 1) % 2 ^ w) (ws ++ [pos])
    else some (st, pos, ws)

/-- A run of `Erase(pos, count)`: `len = strlen()`, and when `pos < len` the loop
followed by `storage[pos] = 0`. The result is the storage with the list of the offsets
written, in the order of the writes. -/
def EraseRun (w Len : Nat) (st : Storage) (pos count : Nat) : Option (Storage × List Nat) :=
  let len := strlen Len st
  if pos < len then
    (EraseLoop w count len len st pos []).map
      (fun r => (write r.1 r.2.1 0, r.2.2 ++ [r.2.1]))
  else some (st, [])

/-- The member `Erase(pos, count)`. -/
def Erase (w Len : Nat) (st : Storage) (pos count : Nat) : Option Storage :=
  (EraseRun w Len st pos count).map (fun r => r.1)

/-- The offsets that `Erase(pos, count)` writes. -/
def EraseWrites (w Len : Nat) (st : Storage) (pos count : Nat) : Option (List Nat) :=
  (EraseRun w Len st pos count).map (fun r => r.2)

/-- The C library call `strstr(hay, needle)` on two strings: the offset of the first
occurrence of `needle` in `hay`, `none` for the null pointer. The scan tries each
offset in turn; an empty `needle` is found at offset 0. -/
def strstr : List Byte → List Byte → Option Nat
  | [], needle => if needle.isPrefixOf [] then some 0 else none
  | c :: hay, needle =>
    if needle.isPrefixOf (c :: hay) then some 0
    else (strstr hay needle).map (fun i => i + 1)

/-- The member `Contains(const char *s)`: `p = strstr(storage, s);`
`return (p == nullptr) ? -1 : p - storage;`. The offset is at most `Len`, taken to fit
the `int` that is returned. -/
def Contains (Len : Nat) (st : Storage) (s : List Byte) : Int :=
  match strstr (c_str Len st) (cstr s) with
  | none => -1
  | some i => (i : Int)

/-- The buffer is terminated within its capacity: some offset `k ≤ Len` holds zero. -/
def Terminated (Len : Nat) (st : Storage) : Prop :=
  ∃ k, k ≤ Len ∧ st k = 0

/-- The two storages hold the same byte at every offset `0 .. Len`. -/
def SameStorage (Len : Nat) (a b : Storage) : Prop :=
  ∀ i, i ≤ Len → a i = b i

/-- The string `needle` occurs in `t` starting at offset `i`. -/
def OccursAt (t needle : List Byte) (i : Nat) : Prop :=
  i ≤ t.length ∧ needle <+: t.drop i

/-- The bytes of "Hello". -/
def hello : List Byte := [72, 101, 108, 108, 111]

/-- The bytes of "lo". -/
def lo : List Byte := [108, 111]

/-- The bytes of "abcd". -/
def abcd : List Byte := [97, 98, 99, 100]

instance (Len : Nat) (a b : Storage) : Decidable (SameStorage Len a b) := by
  unfold SameStorage
  infer_instance

/-- The member `IsFull()`: `strlen() == Len`. -/
def IsFull (Len : Nat) (st : Storage) : Bool :=
  strlen Len st == Len

/-- The member `EndsWith(c)`: `len = strlen();` `return len != 0 && storage[len - 1] == c;`.
The byte at `len - 1` is only read when `len` is not zero. -/
def EndsWith (Len : Nat) (st : Storage) (c : Byte) : Bool :=
  let len := strlen Len st
  len != 0 && st (len - 1) == c

/-- The C library call `strchr(s, c)` on a string: the offset of the first byte equal to
`c`, `none` for the null pointer. The terminator counts as part of the string, so the
end of the string is a match for `c = 0`. -/
def strchr : List Byte → Byte → Option Nat
  | [], c => if c = 0 then some 0 else none
  | x :: t, c => if x = c then some 0 else (strchr t c).map (fun i => i + 1)

/-- The member `Contains(char c)`: `p = strchr(storage, c);`
`return (p == nullptr) ? -1 : p - storage;`. The offset is at most `Len`, taken to fit
the `int` that is returned. -/
def ContainsChar (Len : Nat) (st : Storage) (c : Byte) : Int :=
  match strchr (c_str Len st) c with
  | none => -1
  | some i => (i : Int)

/-- The C library call `strcmp(s1, s2)` on two strings: zero for equal strings, else
negative or positive as the first differing byte (the terminator being zero) is smaller
or larger in `s1`. Only the sign of the result is fixed by the C standard. -/
def strcmp : List Byte → List Byte → Int
  | [], [] => 0
  | [], _ :: _ => -1
  | _ :: _, [] => 1
  | x :: xs, y :: ys => if x = y then strcmp xs ys else if x < y then -1 else 1

/-- The member `Equals(s)`: `strcmp(storage, s) == 0`. -/
def Equals (Len : Nat) (st : Storage) (s : List Byte) : Bool :=
  strcmp (c_str Len st) (cstr s) == 0

/-- The bytes of the array `storage[Len + 1]`, which `c_str()` points to. -/
def bytes (Len : Nat) (st : Storage) : List Byte :=
  (List.range (Len + 1)).map st

/-- The buffer is zero-padded: every byte from offset `strlen()` through `Len` is zero. -/
def ZeroPadded (Len : Nat) (st : Storage) : Prop :=
  ∀ i, i ≤ Len → strlen Len st ≤ i → st i = 0

instance (Len : Nat) (st : Storage) : Decidable (ZeroPadded Len st) := by
  unfold ZeroPadded
  infer_instance

instance (Len : Nat) (st : Storage) : Decidable (Terminated Len st) := by
  unfold Terminated
  infer_instance

/-- The bytes of "a". -/
def letterA : List Byte := [97]

/-- The bytes 'a', 'b', 'c', 'd', 'x': a `String<4>` left unterminated. -/
def abcdx : List Byte := [97, 98, 99, 100, 120]

/-! ## Bytes and single writes -/

theorem nat_or_eq_zero (x y : Nat) : x ||| y = 0 ↔ x = 0 ∧ y = 0 := by
  constructor
  · intro h
    have hb : ∀ i, x.testBit i = false ∧ y.testBit i = false := by
      intro i
      have := congrArg (fun n => Nat.testBit n i) h
      simpa [Nat.testBit_or] using this
    exact ⟨Nat.eq_of_testBit_eq (by intro i; simp [(hb i).1]),
      Nat.eq_of_testBit_eq (by intro i; simp [(hb i).2])⟩
  · rintro ⟨rfl, rfl⟩
    rfl

theorem byte_xor_val (a b : Byte) : (a ^^^ b).val = a.val ^^^ b.val := by
  have h : (a ^^^ b).val = (a.val ^^^ b.val) % 256 := rfl
  rw [h]
  exact Nat.mod_eq_of_lt (Nat.xor_lt_two_pow (n := 8) a.isLt b.isLt)

theorem byte_or_val (a b : Byte) : (a ||| b).val = a.val ||| b.val := by
  have h : (a ||| b).val = (a.val ||| b.val) % 256 := rfl
  rw [h]
  exact Nat.mod_eq_of_lt (Nat.or_lt_two_pow (n := 8) a.isLt b.isLt)

theorem byte_xor_eq_zero (a b : Byte) : a ^^^ b = 0 ↔ a = b := by
  rw [Fin.ext_iff, Fin.ext_iff, byte_xor_val]
  exact Nat.xor_eq_zero

theorem byte_or_eq_zero (a b : Byte) : a ||| b = 0 ↔ a = 0 ∧ b = 0 := by
  rw [Fin.ext_iff, Fin.ext_iff, Fin.ext_iff, byte_or_val]
  exact nat_or_eq_zero _ _

@[simp] theorem write_same (st : Storage) (i : Nat) (v : Byte) : write st i v i = v := by
  simp [write]

theorem write_other (st : Storage) (i j : Nat) (v : Byte) (h : j ≠ i) :
    write st i v j = st j := by
  simp [write, h]

/-! ## The comparison loop -/

theorem ConstantTimeEqualsLoop_succ (Len : Nat) (a b : Storage) (fuel i : Nat) (rslt : Byte)
    (steps : Nat) :
    ConstantTimeEqualsLoop Len a b (fuel + 1) i rslt steps =
      if i < Len then
        ConstantTimeEqualsLoop Len a b fuel (i + 1) (rslt ||| (a i ^^^ b i)) (steps + 1)
      else some (rslt, steps) := by
  rw [ConstantTimeEqualsLoop]

theorem ConstantTimeEqualsLoop_spec (Len : Nat) (a b : Storage) :
    ∀ fuel i rslt steps, i ≤ Len → Len - i ≤ fuel →
      ∃ r, ConstantTimeEqualsLoop Len a b fuel i rslt steps = some (r, steps + (Len - i)) ∧
        (r = 0 ↔ rslt = 0 ∧ ∀ j, i ≤ j → j < Len → a j = b j) := by
  intro fuel
  induction fuel with
  | zero =>
    intro i rslt steps hi hf
    have hiL : i = Len := by omega
    subst hiL
    refine ⟨rslt, ?_, ?_⟩
    · unfold ConstantTimeEqualsLoop
      simp
    · constructor
      · intro h
        exact ⟨h, fun j h1 h2 => absurd h1 (by omega)⟩
      · intro h
        exact h.1
  | succ fuel ih =>
    intro i rslt steps hi hf
    by_cases hlt : i < Len
    · obtain ⟨r, hr, hiff⟩ := ih (i + 1) (rslt ||| (a i ^^^ b i)) (steps + 1) (by omega) (by omega)
      refine ⟨r, ?_, ?_⟩
      · rw [ConstantTimeEqualsLoop_succ, if_pos hlt, hr]
        congr 2
        omega
      · rw [hiff, byte_or_eq_zero, byte_xor_eq_zero]
        constructor
        · rintro ⟨⟨h0, hi0⟩, hrest⟩
          refine ⟨h0, fun j h1 h2 => ?_⟩
          by_cases hj : j = i
          · subst hj
            exact hi0
          · exact hrest j (by omega) h2
        · rintro ⟨h0, hall⟩
          exact ⟨⟨h0, hall i le_rfl hlt⟩, fun j h1 h2 => hall j (by omega) h2⟩
    · have hiL : i = Len := by omega
      subst hiL
      refine ⟨rslt, ?_, ?_⟩
      · unfold ConstantTimeEqualsLoop
        simp
      · constructor
        · intro h
          exact ⟨h, fun j h1 h2 => absurd h1 (by omega)⟩
        · intro h
          exact h.1

theorem ConstantTimeEqualsRun_spec (Len : Nat) (a b : Storage) :
    ∃ r, ConstantTimeEqualsRun Len a b = some (r, Len) ∧
      (r = 0 ↔ ∀ j, j < Len → a j = b j) := by
  obtain ⟨r, hr, hiff⟩ := ConstantTimeEqualsLoop_spec Len a b Len 0 0 0 (Nat.zero_le _) (by omega)
  refine ⟨r, ?_, ?_⟩
  · unfold ConstantTimeEqualsRun
    rw [hr]
    simp
  · rw [hiff]
    constructor
    · intro h j hj
      exact h.2 j (Nat.zero_le _) hj
    · intro h
      exact ⟨rfl, fun j _ hj => h j hj⟩

theorem ConstantTimeEquals_eq (Len : Nat) (a b : Storage) :
    ConstantTimeEquals Len a b = some (decide (∀ j, j < Len → a j = b j)) := by
  obtain ⟨r, hr, hiff⟩ := ConstantTimeEqualsRun_spec Len a b
  unfold ConstantTimeEquals
  rw [hr]
  simp only [Option.map_some', Option.some.injEq]
  by_cases h : ∀ j, j < Len → a j = b j
  · rw [decide_eq_true h]
    simpa using hiff.2 h
  · rw [decide_eq_false h]
    have : ¬ r = 0 := fun h0 => h (hiff.1 h0)
    simpa using this

/-! ## CopyAndPad -/

theorem CopyAndPad_apply (Len : Nat) (st : Storage) (src : List Byte) (i : Nat) :
    CopyAndPad Len st src i =
      if i < min (cstr src).length Len then (cstr src).getD i 0
      else if i ≤ Len then 0 else st i := by
  unfold CopyAndPad copy memset
  simp only
  by_cases h1 : i < min (cstr src).length Len
  · simp [h1]
  · simp only [h1, if_false]
    by_cases h2 : i = min (cstr src).length Len
    · have : i ≤ Len := by omega
      simp [h2, this]
    · by_cases h3 : i ≤ Len
      · have : i < Len + 1 := by omega
        simp [h2, h3, this]
      · have : ¬ i < Len + 1 := by omega
        simp [h2, h3, this]

theorem CopyAndPad_last (Len : Nat) (st : Storage) (src : List Byte) :
    CopyAndPad Len st src Len = 0 := by
  rw [CopyAndPad_apply]
  have : ¬ Len < min (cstr src).length Len := by omega
  simp [this]

/-! ## Strnlen and the content -/

theorem StrnlenFrom_spec (st : Storage) :
    ∀ n i, i ≤ StrnlenFrom st n i ∧ StrnlenFrom st n i ≤ i + n ∧
      (∀ j, i ≤ j → j < StrnlenFrom st n i → st j ≠ 0) ∧
      (StrnlenFrom st n i < i + n → st (StrnlenFrom st n i) = 0) := by
  intro n
  induction n with
  | zero =>
    intro i
    simp only [StrnlenFrom]
    refine ⟨le_rfl, le_rfl, fun j h1 h2 => absurd h1 (by omega), fun h => absurd h (by omega)⟩
  | succ n ih =>
    intro i
    simp only [StrnlenFrom]
    by_cases h0 : st i = 0
    · rw [if_pos h0]
      exact ⟨le_rfl, by omega, fun j h1 h2 => absurd h1 (by omega), fun _ => h0⟩
    · rw [if_neg h0]
      obtain ⟨h1, h2, h3, h4⟩ := ih (i + 1)
      refine ⟨by omega, by omega, fun j hj1 hj2 => ?_, fun h => h4 (by omega)⟩
      by_cases hji : j = i
      · subst hji
        exact h0
      · exact h3 j (by omega) hj2

theorem strlen_le (Len : Nat) (st : Storage) : strlen Len st ≤ Len := by
  have h := (StrnlenFrom_spec st Len 0).2.1
  simpa [strlen, Strnlen] using h

theorem strlen_ne_zero (Len : Nat) (st : Storage) (j : Nat) (h : j < strlen Len st) :
    st j ≠ 0 :=
  (StrnlenFrom_spec st Len 0).2.2.1 j (Nat.zero_le _) h

theorem strlen_zero (Len : Nat) (st : Storage) (h : strlen Len st < Len) :
    st (strlen Len st) = 0 :=
  (StrnlenFrom_spec st Len 0).2.2.2 (by simpa [strlen, Strnlen] using h)

theorem strlen_unique (Len : Nat) (st : Storage) (k : Nat) (hk : k ≤ Len)
    (hne : ∀ j, j < k → st j ≠ 0) (hz : k < Len → st k = 0) : strlen Len st = k := by
  have h1 := strlen_le Len st
  rcases Nat.lt_trichotomy (strlen Len st) k with h | h | h
  · exact absurd (strlen_zero Len st (by omega)) (hne _ h)
  · exact h
  · exact absurd (hz (by omega)) (strlen_ne_zero Len st k h)

theorem content_length (Len : Nat) (st : Storage) :
    (content Len st).length = strlen Len st := by
  simp [content]

theorem content_eq_of_agree (Len : Nat) (a b : Storage) (h : strlen Len a = strlen Len b)
    (hab : ∀ j, j < strlen Len b → a j = b j) : content Len a = content Len b := by
  unfold content
  rw [h]
  apply List.map_congr_left
  intro j hj
  exact hab j (List.mem_range.1 hj)

theorem strlen_eq_of_terminated (Len : Nat) (st : Storage) (h : Terminated Len st) :
    st (strlen Len st) = 0 := by
  obtain ⟨k, hk, hz⟩ := h
  by_cases hlt : strlen Len st < Len
  · exact strlen_zero Len st hlt
  · have hL : strlen Len st = Len := le_antisymm (strlen_le Len st) (by omega)
    have hkL : k = Len := by
      by_contra hne
      exact strlen_ne_zero Len st k (by omega) hz
    rw [hL, ← hkL]
    exact hz

/-! ## Truncate -/

theorem Truncate_eq (Len : Nat) (st : Storage) (k : Nat) :
    Truncate Len st k = if k < Len then write st k 0 else st := by
  unfold Truncate TruncateRun
  split <;> rfl

theorem strlen_write_zero_lt (Len : Nat) (st : Storage) (k : Nat) (h : k < strlen Len st) :
    strlen Len (write st k 0) = k := by
  have hL := strlen_le Len st
  apply strlen_unique Len _ k (by omega)
  · intro j hj
    rw [write_other _ _ _ _ (by omega)]
    exact strlen_ne_zero Len st j (by omega)
  · intro _
    exact write_same _ _ _

theorem strlen_write_zero_ge (Len : Nat) (st : Storage) (k : Nat) (h : strlen Len st ≤ k) :
    strlen Len (write st k 0) = strlen Len st := by
  apply strlen_unique Len _ _ (strlen_le Len st)
  · intro j hj
    rw [write_other _ _ _ _ (by omega)]
    exact strlen_ne_zero Len st j hj
  · intro hlt
    by_cases he : strlen Len st = k
    · rw [he]
      exact write_same _ _ _
    · rw [write_other _ _ _ _ he]
      exact strlen_zero Len st hlt

theorem Truncate_strlen (Len : Nat) (st : Storage) (k : Nat) :
    strlen Len (Truncate Len st k) = min k (strlen Len st) := by
  have hL := strlen_le Len st
  rw [Truncate_eq]
  by_cases hk : k < Len
  · rw [if_pos hk]
    by_cases hlt : k < strlen Len st
    · rw [strlen_write_zero_lt Len st k hlt]
      omega
    · rw [strlen_write_zero_ge Len st k (by omega)]
      omega
  · rw [if_neg hk]
    omega

theorem Truncate_agree (Len : Nat) (st : Storage) (k j : Nat) (hj : j < k) :
    Truncate Len st k j = st j := by
  rw [Truncate_eq]
  split
  · exact write_other _ _ _ _ (by omega)
  · rfl

theorem Truncate_content (Len : Nat) (st : Storage) (k : Nat) :
    content Len (Truncate Len st k) = (content Len st).take k := by
  unfold content
  rw [Truncate_strlen, ← List.map_take, List.take_range]
  apply List.map_congr_left
  intro j hj
  have := List.mem_range.1 hj
  exact Truncate_agree Len st k j (by omega)

/-! ## Erase -/

theorem EraseLoop_succ (w count len fuel : Nat) (st : Storage) (pos : Nat) (ws : List Nat) :
    EraseLoop w count len (fuel + 1) st pos ws =
      if (pos + count) % 2 ^ w < len then
        EraseLoop w count len fuel
          (write st pos (st ((pos + count) % 2 ^ w))) ((pos + 1) % 2 ^ w) (ws ++ [pos])
      else some (st, pos, ws) := by
  rw [EraseLoop]

theorem EraseLoop_exit (w count len fuel : Nat) (st : Storage) (pos : Nat) (ws : List Nat)
    (h : ¬ (pos + count) % 2 ^ w < len) :
    EraseLoop w count len fuel st pos ws = some (st, pos, ws) := by
  cases fuel with
  | zero => rw [EraseLoop, if_neg h]
  | succ fuel => rw [EraseLoop_succ, if_neg h]

theorem EraseLoop_shift (w count len : Nat) (hlen : len < 2 ^ w) :
    ∀ fuel (st : Storage) pos ws, pos + count ≤ len → len - (pos + count) ≤ fuel →
      EraseLoop w count len fuel st pos ws =
        some (fun j => if pos ≤ j ∧ j < len - count then st (j + count) else st j,
          len - count, ws ++ List.range' pos (len - count - pos)) := by
  intro fuel
  induction fuel with
  | zero =>
    intro st pos ws h1 h2
    have hpc : pos + count = len := by omega
    have hmod : (pos + count) % 2 ^ w = pos + count := Nat.mod_eq_of_lt (by omega)
    rw [EraseLoop_exit _ _ _ _ _ _ _ (by rw [hmod]; omega)]
    have e1 : len - count = pos := by omega
    rw [e1, Nat.sub_self]
    simp only [List.range'_zero, List.append_nil, Option.some.injEq, Prod.mk.injEq, and_true]
    funext j
    rw [if_neg (by omega)]
  | succ fuel ih =>
    intro st pos ws h1 h2
    have hmod : (pos + count) % 2 ^ w = pos + count := Nat.mod_eq_of_lt (by omega)
    by_cases hpc : pos + count = len
    · rw [EraseLoop_exit _ _ _ _ _ _ _ (by rw [hmod]; omega)]
      have e1 : len - count = pos := by omega
      rw [e1, Nat.sub_self]
      simp only [List.range'_zero, List.append_nil, Option.some.injEq, Prod.mk.injEq, and_true]
      funext j
      rw [if_neg (by omega)]
    · have hlt : pos + count < len := by omega
      have hmod1 : (pos + 1) % 2 ^ w = pos + 1 := Nat.mod_eq_of_lt (by omega)
      rw [EraseLoop_succ, hmod, if_pos hlt, hmod1, ih _ _ _ (by omega) (by omega)]
      have e3 : len - count - pos = (len - count - (pos + 1)) + 1 := by omega
      rw [e3, List.range'_succ]
      simp only [List.append_assoc, List.singleton_append, Option.some.injEq, Prod.mk.injEq,
        and_true]
      funext j
      by_cases hj : pos + 1 ≤ j ∧ j < len - count
      · rw [if_pos hj, if_pos (by omega), write_other _ _ _ _ (by omega)]
      · rw [if_neg hj]
        by_cases hjp : j = pos
        · subst hjp
          rw [if_pos (by omega), write_same]
        · rw [write_other _ _ _ _ hjp, if_neg (by omega)]

theorem EraseRun_no_wrap (w Len : Nat) (st : Storage) (pos count : Nat) (hLen : Len < 2 ^ w)
    (hsum : pos + count < 2 ^ w) (hpos : pos < strlen Len st) :
    EraseRun w Len st pos count =
      some (write (fun j => if pos ≤ j ∧ j < strlen Len st - min count (strlen Len st - pos)
              then st (j + count) else st j)
            (strlen Len st - min count (strlen Len st - pos)) 0,
          List.range' pos (strlen Len st - min count (strlen Len st - pos) - pos) ++
            [strlen Len st - min count (strlen Len st - pos)]) := by
  have hL := strlen_le Len st
  unfold EraseRun
  simp only [if_pos hpos]
  by_cases hc : pos + count ≤ strlen Len st
  · rw [EraseLoop_shift w count _ (by omega) _ _ _ _ hc (by omega)]
    have e : strlen Len st - min count (strlen Len st - pos) = strlen Len st - count := by omega
    rw [e]
    simp
  · have hmod : (pos + count) % 2 ^ w = pos + count := Nat.mod_eq_of_lt hsum
    rw [EraseLoop_exit _ _ _ _ _ _ _ (by rw [hmod]; omega)]
    have e : strlen Len st - min count (strlen Len st - pos) = pos := by omega
    have hst : (fun j => if pos ≤ j ∧ j < pos then st (j + count) else st j) = st :=
      funext fun j => if_neg (by omega)
    rw [e, hst]
    simp

theorem EraseRun_out_of_range (w Len : Nat) (st : Storage) (pos count : Nat)
    (hpos : strlen Len st ≤ pos) : EraseRun w Len st pos count = some (st, []) := by
  unfold EraseRun
  simp only [if_neg (Nat.not_lt.2 hpos)]

theorem EraseLoop_total (w count len : Nat) (hlen : len < 2 ^ w) :
    ∀ fuel (st : Storage) pos ws, len - (pos + count) % 2 ^ w ≤ fuel →
      ∃ r, EraseLoop w count len fuel st pos ws = some r := by
  intro fuel
  induction fuel with
  | zero =>
    intro st pos ws h
    exact ⟨_, EraseLoop_exit _ _ _ _ _ _ _ (by omega)⟩
  | succ fuel ih =>
    intro st pos ws h
    by_cases hc : (pos + count) % 2 ^ w < len
    · rw [EraseLoop_succ, if_pos hc]
      apply ih
      have e : ((pos + 1) % 2 ^ w + count) % 2 ^ w = (pos + count) % 2 ^ w + 1 := by
        rw [Nat.mod_add_mod, show pos + 1 + count = pos + count + 1 by omega,
          ← Nat.mod_add_mod (pos + count)]
        exact Nat.mod_eq_of_lt (by omega)
      omega
    · exact ⟨_, EraseLoop_exit _ _ _ _ _ _ _ hc⟩

theorem EraseRun_total (w Len : Nat) (st : Storage) (pos count : Nat) (hLen : Len < 2 ^ w) :
    ∃ r, EraseRun w Len st pos count = some r := by
  have hL := strlen_le Len st
  unfold EraseRun
  by_cases hpos : pos < strlen Len st
  · obtain ⟨r, hr⟩ := EraseLoop_total w count (strlen Len st) (by omega) (strlen Len st) st pos []
      (by omega)
    simp only [if_pos hpos, hr]
    exact ⟨_, rfl⟩
  · simp only [if_neg hpos]
    exact ⟨_, rfl⟩

theorem Erase_no_wrap (w Len : Nat) (st : Storage) (pos count : Nat) (hLen : Len < 2 ^ w)
    (hsum : pos + count < 2 ^ w) (hpos : pos < strlen Len st) :
    ∃ st', Erase w Len st pos count = some st' ∧
      st' (strlen Len st - min count (strlen Len st - pos)) = 0 ∧
      (∀ j, j < pos → st' j = st j) ∧
      (∀ j, pos ≤ j → j < strlen Len st - min count (strlen Len st - pos) →
        st' j = st (j + count)) ∧
      (∀ j, strlen Len st - min count (strlen Len st - pos) < j → st' j = st j) := by
  refine ⟨write (fun j => if pos ≤ j ∧ j < strlen Len st - min count (strlen Len st - pos)
      then st (j + count) else st j) (strlen Len st - min count (strlen Len st - pos)) 0,
    ?_, ?_, ?_, ?_, ?_⟩
  · unfold Erase
    rw [EraseRun_no_wrap w Len st pos count hLen hsum hpos]
    rfl
  · exact write_same _ _ _
  · intro j hj
    rw [write_other _ _ _ _ (by omega)]
    exact if_neg (by omega)
  · intro j h1 h2
    rw [write_other _ _ _ _ (by omega)]
    exact if_pos ⟨h1, h2⟩
  · intro j hj
    rw [write_other _ _ _ _ (by omega)]
    exact if_neg (by omega)

theorem Erase_strlen_content (w Len : Nat) (st : Storage) (pos count : Nat)
    (hLen : Len < 2 ^ w) (hsum : pos + count < 2 ^ w) (hpos : pos < strlen Len st) :
    ∃ st', Erase w Len st pos count = some st' ∧
      strlen Len st' = strlen Len st - min count (strlen Len st - pos) ∧
      content Len st' =
        (content Len st).take pos ++
          (content Len st).drop (min (pos + count) (strlen Len st)) := by
  obtain ⟨st', hE, hz, hlow, hmid, _⟩ := Erase_no_wrap w Len st pos count hLen hsum hpos
  have hL := strlen_le Len st
  have hlen : strlen Len st' = strlen Len st - min count (strlen Len st - pos) := by
    apply strlen_unique Len st' _ (by omega)
    · intro j hj
      by_cases hjp : j < pos
      · rw [hlow j hjp]
        exact strlen_ne_zero Len st j (by omega)
      · rw [hmid j (by omega) hj]
        exact strlen_ne_zero Len st _ (by omega)
    · intro _
      exact hz
  refine ⟨st', hE, hlen, ?_⟩
  unfold content
  rw [hlen]
  apply List.ext_getElem?
  intro i
  simp only [List.getElem?_append, List.getElem?_take, List.getElem?_drop, List.getElem?_map,
    List.getElem?_range, List.length_take, List.length_map, List.length_range]
  by_cases h1 : i < pos
  · rw [List.getElem?_range (by omega), if_pos (by omega), if_pos h1,
      List.getElem?_range (by omega)]
    simp only [Option.map_some', hlow i h1]
  · rw [if_neg (by omega)]
    by_cases h2 : i < strlen Len st - min count (strlen Len st - pos)
    · rw [List.getElem?_range h2, List.getElem?_range (by omega)]
      simp only [Option.map_some', hmid i (by omega) h2, Option.some.injEq]
      congr 1
      omega
    · rw [List.getElem?_eq_none (by simp only [List.length_range]; omega),
        List.getElem?_eq_none (by simp only [List.length_range]; omega)]
      rfl

/-! ## The string seen by the C library, and strstr -/

theorem c_str_eq_content (Len : Nat) (st : Storage) (h : Terminated Len st) :
    c_str Len st = content Len st := by
  have hz := strlen_eq_of_terminated Len st h
  have hL := strlen_le Len st
  unfold c_str content
  have e : Len + 1 = strlen Len st + ((Len - strlen Len st) + 1) := by omega
  rw [e, List.range_add, List.range_succ_eq_map, List.map_append, List.map_cons,
    List.map_cons, List.takeWhile_append_of_pos, List.takeWhile_cons_of_neg]
  · simp
  · simpa using hz
  · intro c hc
    obtain ⟨j, hj, rfl⟩ := List.mem_map.1 hc
    simpa using strlen_ne_zero Len st j (List.mem_range.1 hj)

theorem OccursAt_zero (t needle : List Byte) : OccursAt t needle 0 ↔ needle <+: t := by
  simp [OccursAt]

theorem OccursAt_succ (c : Byte) (t needle : List Byte) (j : Nat) :
    OccursAt (c :: t) needle (j + 1) ↔ OccursAt t needle j := by
  simp [OccursAt]

theorem strstr_some (needle : List Byte) :
    ∀ (t : List Byte) (i : Nat), strstr t needle = some i →
      OccursAt t needle i ∧ ∀ j, j < i → ¬ OccursAt t needle j := by
  intro t
  induction t with
  | nil =>
    intro i h
    simp only [strstr] at h
    split at h
    · rename_i hp
      cases h
      exact ⟨(OccursAt_zero _ _).2 (List.isPrefixOf_iff_prefix.1 hp), fun j hj => absurd hj (by omega)⟩
    · cases h
  | cons c t ih =>
    intro i h
    simp only [strstr] at h
    split at h
    · rename_i hp
      cases h
      exact ⟨(OccursAt_zero _ _).2 (List.isPrefixOf_iff_prefix.1 hp), fun j hj => absurd hj (by omega)⟩
    · rename_i hp
      cases hs : strstr t needle with
      | none => rw [hs] at h; cases h
      | some k =>
        rw [hs] at h
        simp only [Option.map_some', Option.some.injEq] at h
        subst h
        obtain ⟨h1, h2⟩ := ih k hs
        refine ⟨(OccursAt_succ _ _ _ _).2 h1, fun j hj => ?_⟩
        cases j with
        | zero =>
          rw [OccursAt_zero]
          exact fun hpre => hp (List.isPrefixOf_iff_prefix.2 hpre)
        | succ j =>
          rw [OccursAt_succ]
          exact h2 j (by omega)

theorem strstr_none (needle : List Byte) :
    ∀ (t : List Byte), strstr t needle = none → ∀ j, ¬ OccursAt t needle j := by
  intro t
  induction t with
  | nil =>
    intro h j
    simp only [strstr] at h
    split at h
    · cases h
    · rename_i hp
      intro ⟨hj, hpre⟩
      have hj0 : j = 0 := by simpa using hj
      subst hj0
      exact hp (List.isPrefixOf_iff_prefix.2 (by simpa using hpre))
  | cons c t ih =>
    intro h j
    simp only [strstr] at h
    split at h
    · cases h
    · rename_i hp
      have hs : strstr t needle = none := by
        cases hs : strstr t needle with
        | none => rfl
        | some k => rw [hs] at h; cases h
      cases j with
      | zero =>
        rw [OccursAt_zero]
        exact fun hpre => hp (List.isPrefixOf_iff_prefix.2 hpre)
      | succ j =>
        rw [OccursAt_succ]
        exact ih hs j

/-! ## ConstantTimeEquals and CopyAndPad -/

/-- C1: for two buffers that were each last populated by `CopyAndPad`, from any source
strings and over any prior storage contents, `ConstantTimeEquals` returns, and it returns
true exactly when the two storages hold the same byte at every offset `0 .. Len`. -/
theorem ConstantTimeEquals_after_CopyAndPad (Len : Nat) (st1 st2 : Storage)
    (src1 src2 : List Byte) :
    ConstantTimeEquals Len (CopyAndPad Len st1 src1) (CopyAndPad Len st2 src2) =
      some (decide (SameStorage Len (CopyAndPad Len st1 src1) (CopyAndPad Len st2 src2))) := by
  rw [ConstantTimeEquals_eq]
  congr 1
  apply decide_eq_decide.2
  constructor
  · intro h i hi
    by_cases hL : i = Len
    · rw [hL, CopyAndPad_last, CopyAndPad_last]
    · exact h i (by omega)
  · intro h i hi
    exact h i (by omega)

/-- C2: after `CopyAndPad(src)` the `Len + 1` bytes of storage are the first
`min(len(src), Len)` bytes of `src` followed by zero bytes only, whatever the storage held
before; two prior storage contents give the same storage. -/
theorem CopyAndPad_storage (Len : Nat) (st : Storage) (src : List Byte) :
    (List.range (Len + 1)).map (CopyAndPad Len st src) =
        (cstr src).take Len ++ List.replicate (Len + 1 - min (cstr src).length Len) 0 ∧
      ∀ st', SameStorage Len (CopyAndPad Len st src) (CopyAndPad Len st' src) := by
  constructor
  · apply List.ext_getElem
    · simp only [List.length_map, List.length_range, List.length_append, List.length_take,
        List.length_replicate]
      omega
    · intro i h1 h2
      simp only [List.length_map, List.length_range] at h1
      simp only [List.getElem_map, List.getElem_range, CopyAndPad_apply]
      by_cases hi : i < min (cstr src).length Len
      · rw [if_pos hi, List.getElem_append_left (by simp only [List.length_take]; omega), List.getElem_take]
        exact List.getD_eq_getElem _ _ (by omega)
      · rw [if_neg hi, if_pos (by omega), List.getElem_append_right (by simp only [List.length_take]; omega)]
        simp
  · intro st' i hi
    rw [CopyAndPad_apply, CopyAndPad_apply]
    by_cases h1 : i < min (cstr src).length Len
    · rw [if_pos h1, if_pos h1]
    · rw [if_neg h1, if_neg h1, if_pos hi, if_pos hi]

/-- C3: `ConstantTimeEquals` executes the body of its loop exactly `Len` times for every
pair of storage contents, so two runs on any operands make the same number of byte
comparisons. -/
theorem ConstantTimeEquals_steps (Len : Nat) (a b : Storage) :
    ConstantTimeEqualsSteps Len a b = some Len ∧
      ∀ a' b', ConstantTimeEqualsSteps Len a' b' = ConstantTimeEqualsSteps Len a b := by
  have key : ∀ x y, ConstantTimeEqualsSteps Len x y = some Len := by
    intro x y
    obtain ⟨r, hr, _⟩ := ConstantTimeEqualsRun_spec Len x y
    unfold ConstantTimeEqualsSteps
    rw [hr]
    rfl
  exact ⟨key a b, fun a' b' => by rw [key a' b', key a b]⟩

/-! ## The offsets written -/

theorem EraseWrites_in_range (w Len : Nat) (st : Storage) (pos count : Nat)
    (hLen : Len < 2 ^ w) (hsum : pos + count < 2 ^ w) :
    ∃ ws, EraseWrites w Len st pos count = some ws ∧ ∀ i ∈ ws, i ≤ Len := by
  have hL := strlen_le Len st
  unfold EraseWrites
  by_cases hpos : pos < strlen Len st
  · rw [EraseRun_no_wrap w Len st pos count hLen hsum hpos]
    refine ⟨_, rfl, ?_⟩
    intro i hi
    rcases List.mem_append.1 hi with h | h
    · have := (List.mem_range'_1.1 h).2
      omega
    · have := List.mem_singleton.1 h
      omega
  · rw [EraseRun_out_of_range w Len st pos count (by omega)]
    exact ⟨[], rfl, fun i hi => absurd hi (List.not_mem_nil i)⟩

theorem TruncateRun_in_range (Len : Nat) (st : Storage) (pos : Nat) :
    ∀ i ∈ (TruncateRun Len st pos).2, i ≤ Len := by
  intro i hi
  unfold TruncateRun at hi
  by_cases hp : pos < Len
  · rw [if_pos hp] at hi
    have := List.mem_singleton.1 hi
    omega
  · rw [if_neg hp] at hi
    exact absurd hi (List.not_mem_nil i)

/-! ## Erase and Truncate -/

/-- C4: for `pos < strlen()` and `pos + count` at most the largest `size_t` value,
`Erase(pos, count)` returns and leaves the content `s[0..pos)` followed by
`s[min(pos+count, len)..len)`, of length `len - min(count, len - pos)`. -/
theorem Erase_content (w Len : Nat) (st : Storage) (pos count : Nat) (hLen : Len < 2 ^ w)
    (hpos : pos < strlen Len st) (hsum : pos + count ≤ 2 ^ w - 1) :
    ∃ st', Erase w Len st pos count = some st' ∧
      content Len st' =
        (content Len st).take pos ++
          (content Len st).drop (min (pos + count) (strlen Len st)) ∧
      strlen Len st' = strlen Len st - min count (strlen Len st - pos) := by
  have h2 := Nat.two_pow_pos w
  obtain ⟨st', h1, h3, h4⟩ := Erase_strlen_content w Len st pos count hLen (by omega) hpos
  exact ⟨st', h1, h4, h3⟩

/-- The content "abcd" in a `String<4>` with `Erase(1, 2)` on a 32-bit `size_t`. -/
theorem Erase_content_witness :
    (4 < 2 ^ 32 ∧ 1 < strlen 4 (ofList abcd) ∧ 1 + 2 ≤ 2 ^ 32 - 1) ∧
      ∃ st', Erase 32 4 (ofList abcd) 1 2 = some st' ∧
        content 4 st' =
          (content 4 (ofList abcd)).take 1 ++
            (content 4 (ofList abcd)).drop (min (1 + 2) (strlen 4 (ofList abcd))) ∧
        strlen 4 st' = strlen 4 (ofList abcd) - min 2 (strlen 4 (ofList abcd) - 1) :=
  ⟨⟨by decide, by decide, by decide⟩,
    Erase_content 32 4 (ofList abcd) 1 2 (by decide) (by decide) (by decide)⟩

/-- C5, at a wrapping sum: on a `String<4>` holding "abcd", with a 32-bit `size_t`,
`Erase(1, 4294967295)` writes the offsets 1, 2, 3, 4 and then 5, which lies past the five
bytes of storage: not every offset written by `Erase` is within `0 .. Len`. -/
theorem Erase_writes_past_storage :
    strlen 4 (ofList abcd) = 4 ∧
      EraseWrites 32 4 (ofList abcd) 1 (2 ^ 32 - 1) = some [1, 2, 3, 4, 5] ∧
      ¬ ∀ ws, EraseWrites 32 4 (ofList abcd) 1 (2 ^ 32 - 1) = some ws → ∀ i ∈ ws, i ≤ 4 := by
  have hw : EraseWrites 32 4 (ofList abcd) 1 (2 ^ 32 - 1) = some [1, 2, 3, 4, 5] := by decide
  refine ⟨by decide, hw, fun hall => ?_⟩
  have h5 := hall _ hw 5 (by simp)
  omega

/-- C6: for `pos` at or past the content length, `Erase(pos, count)` returns with the
storage unchanged and without a single write. -/
theorem Erase_out_of_range (w Len : Nat) (st : Storage) (pos count : Nat)
    (hpos : strlen Len st ≤ pos) :
    Erase w Len st pos count = some st ∧ EraseWrites w Len st pos count = some [] := by
  unfold Erase EraseWrites
  rw [EraseRun_out_of_range w Len st pos count hpos]
  exact ⟨rfl, rfl⟩

/-- The content "abcd" in a `String<4>` with `Erase(4, 1)`. -/
theorem Erase_out_of_range_witness :
    strlen 4 (ofList abcd) ≤ 4 ∧
      (Erase 32 4 (ofList abcd) 4 1 = some (ofList abcd) ∧
        EraseWrites 32 4 (ofList abcd) 4 1 = some []) :=
  ⟨by decide, Erase_out_of_range 32 4 (ofList abcd) 4 1 (by decide)⟩

/-- C7: after `Truncate(pos)` the content is the first `min(pos, len)` bytes of the
content before it, and the content length is `min(pos, len)`: `pos` when `pos < len`,
unchanged when `pos ≥ len`. -/
theorem Truncate_content_strlen (Len : Nat) (st : Storage) (pos : Nat) :
    content Len (Truncate Len st pos) =
        (content Len st).take (min pos (strlen Len st)) ∧
      strlen Len (Truncate Len st pos) = min pos (strlen Len st) := by
  refine ⟨?_, Truncate_strlen Len st pos⟩
  rw [Truncate_content]
  by_cases h : pos ≤ strlen Len st
  · rw [Nat.min_eq_left h]
  · have hlen := content_length Len st
    rw [Nat.min_eq_right (by omega), List.take_of_length_le (by omega),
      List.take_of_length_le (by omega)]

/-- C8: `Truncate(k)` followed by `Truncate(k)` leaves the same storage as a single
`Truncate(k)`. -/
theorem Truncate_idempotent (Len : Nat) (st : Storage) (k : Nat) :
    Truncate Len (Truncate Len st k) k = Truncate Len st k := by
  rw [Truncate_eq Len (Truncate Len st k) k, Truncate_eq Len st k]
  by_cases h : k < Len
  · simp only [if_pos h]
    funext j
    by_cases hj : j = k
    · rw [hj, write_same, write_same]
    · rw [write_other _ _ _ _ hj]
  · simp only [if_neg h]

/-- C9: the constructor and `EnsureNullTerminated` leave a zero byte at some offset
`k ≤ Len` whatever the memory held, and from a storage with such a byte `Clear`,
`Truncate(pos)`, `Erase(pos, count)` with `pos + count` at most the largest `size_t`
value, and `CopyAndPad(src)` all return a storage with such a byte. -/
theorem Terminated_invariant (w Len : Nat) (st0 st : Storage) (hLen : Len < 2 ^ w)
    (h : Terminated Len st) :
    Terminated Len (construct st0) ∧
      Terminated Len (EnsureNullTerminated Len st0) ∧
      Terminated Len (Clear st) ∧
      (∀ pos, Terminated Len (Truncate Len st pos)) ∧
      (∀ pos count, pos + count ≤ 2 ^ w - 1 →
        ∃ st', Erase w Len st pos count = some st' ∧ Terminated Len st') ∧
      (∀ src, Terminated Len (CopyAndPad Len st src)) := by
  refine ⟨⟨0, Nat.zero_le _, write_same _ _ _⟩, ⟨Len, le_rfl, write_same _ _ _⟩,
    ⟨0, Nat.zero_le _, write_same _ _ _⟩, ?_, ?_, ?_⟩
  · intro pos
    rw [Truncate_eq]
    by_cases hp : pos < Len
    · rw [if_pos hp]
      exact ⟨pos, by omega, write_same _ _ _⟩
    · rw [if_neg hp]
      exact h
  · intro pos count hsum
    have h2 := Nat.two_pow_pos w
    have hL := strlen_le Len st
    by_cases hpos : pos < strlen Len st
    · obtain ⟨st', hE, hz, _⟩ := Erase_no_wrap w Len st pos count hLen (by omega) hpos
      exact ⟨st', hE, _, by omega, hz⟩
    · refine ⟨st, ?_, h⟩
      unfold Erase
      rw [EraseRun_out_of_range w Len st pos count (by omega)]
      rfl
  · intro src
    exact ⟨Len, le_rfl, CopyAndPad_last Len st src⟩

/-- A `String<4>` built over the bytes 1, 2, 3, 4, 5 and one holding "abcd". -/
theorem Terminated_invariant_witness :
    (4 < 2 ^ 32 ∧ Terminated 4 (ofList abcd)) ∧
      (Terminated 4 (construct (ofList [1, 2, 3, 4, 5])) ∧
        Terminated 4 (EnsureNullTerminated 4 (ofList [1, 2, 3, 4, 5])) ∧
        Terminated 4 (Clear (ofList abcd)) ∧
        (∀ pos, Terminated 4 (Truncate 4 (ofList abcd) pos)) ∧
        (∀ pos count, pos + count ≤ 2 ^ 32 - 1 →
          ∃ st', Erase 32 4 (ofList abcd) pos count = some st' ∧ Terminated 4 st') ∧
        (∀ src, Terminated 4 (CopyAndPad 4 (ofList abcd) src))) :=
  ⟨⟨by decide, ⟨4, by decide, by decide⟩⟩,
    Terminated_invariant 32 4 (ofList [1, 2, 3, 4, 5]) (ofList abcd) (by decide)
      ⟨4, by decide, by decide⟩⟩

/-! ## Contains -/

/-- C10: on a terminated buffer with content `t`, `Contains(s)` returns the offset `i`
exactly when `s` occurs in `t` at `i` and at no smaller offset, and returns -1 exactly
when `s` occurs nowhere in `t`; `Contains("lo")` on "Hello" returns 3. -/
theorem Contains_first_occurrence (Len : Nat) (st : Storage) (s : List Byte)
    (h : Terminated Len st) :
    (∀ i : Nat, Contains Len st s = (i : Int) ↔
        (OccursAt (content Len st) (cstr s) i ∧
          ∀ j, j < i → ¬ OccursAt (content Len st) (cstr s) j)) ∧
      (Contains Len st s = -1 ↔ ∀ i, ¬ OccursAt (content Len st) (cstr s) i) ∧
      Contains 5 (ofList hello) lo = 3 := by
  rw [← c_str_eq_content Len st h]
  refine ⟨?_, ?_, by decide⟩
  · intro i
    unfold Contains
    cases hs : strstr (c_str Len st) (cstr s) with
    | none =>
      simp only
      constructor
      · intro hc
        omega
      · intro hc
        exact absurd hc.1 (strstr_none _ _ hs i)
    | some k =>
      simp only
      obtain ⟨h1, h2⟩ := strstr_some _ _ _ hs
      constructor
      · intro hc
        have hki : k = i := by omega
        subst hki
        exact ⟨h1, h2⟩
      · rintro ⟨h3, h4⟩
        have hki : k = i := by
          rcases Nat.lt_trichotomy k i with hlt | heq | hgt
          · exact absurd h1 (h4 k hlt)
          · exact heq
          · exact absurd h3 (h2 i hgt)
        rw [hki]
  · unfold Contains
    cases hs : strstr (c_str Len st) (cstr s) with
    | none =>
      simp only [true_iff]
      exact strstr_none _ _ hs
    | some k =>
      simp only
      obtain ⟨h1, _⟩ := strstr_some _ _ _ hs
      constructor
      · intro hc
        omega
      · intro hc
        exact absurd h1 (hc k)

/-- The content "Hello" in a `String<5>`, searched for "lo". -/
theorem Contains_first_occurrence_witness :
    Terminated 5 (ofList hello) ∧
      ((∀ i : Nat, Contains 5 (ofList hello) lo = (i : Int) ↔
          (OccursAt (content 5 (ofList hello)) (cstr lo) i ∧
            ∀ j, j < i → ¬ OccursAt (content 5 (ofList hello)) (cstr lo) j)) ∧
        (Contains 5 (ofList hello) lo = -1 ↔
          ∀ i, ¬ OccursAt (content 5 (ofList hello)) (cstr lo) i) ∧
        Contains 5 (ofList hello) lo = 3) :=
  ⟨⟨5, by decide, by decide⟩,
    Contains_first_occurrence 5 (ofList hello) lo ⟨5, by decide, by decide⟩⟩

/-! ## Contains for a single character -/

theorem content_ne_zero (Len : Nat) (st : Storage) : ∀ x ∈ content Len st, x ≠ 0 := by
  intro x hx
  obtain ⟨j, hj, rfl⟩ := List.mem_map.1 hx
  exact strlen_ne_zero Len st j (List.mem_range.1 hj)

theorem strchr_zero : ∀ (t : List Byte), (∀ x ∈ t, x ≠ 0) → strchr t 0 = some t.length := by
  intro t
  induction t with
  | nil => intro _; simp [strchr]
  | cons x t ih =>
    intro h
    have hx : x ≠ 0 := h x (List.mem_cons_self _ _)
    have ht := ih (fun y hy => h y (List.mem_cons_of_mem _ hy))
    simp [strchr, hx, ht]

theorem strchr_some (c : Byte) (hc : c ≠ 0) :
    ∀ (t : List Byte) (i : Nat), strchr t c = some i →
      t[i]? = some c ∧ ∀ j, j < i → t[j]? ≠ some c := by
  intro t
  induction t with
  | nil =>
    intro i h
    simp [strchr, hc] at h
  | cons x t ih =>
    intro i h
    simp only [strchr] at h
    split at h
    · rename_i hx
      cases h
      exact ⟨by simp [hx], fun j hj => absurd hj (by omega)⟩
    · rename_i hx
      cases hs : strchr t c with
      | none => rw [hs] at h; cases h
      | some k =>
        rw [hs] at h
        simp only [Option.map_some', Option.some.injEq] at h
        subst h
        obtain ⟨h1, h2⟩ := ih k hs
        refine ⟨by simpa using h1, fun j hj => ?_⟩
        cases j with
        | zero => simpa using hx
        | succ j => simpa using h2 j (by omega)

theorem strchr_none (c : Byte) :
    ∀ (t : List Byte), strchr t c = none → c ∉ t := by
  intro t
  induction t with
  | nil => intro _; simp
  | cons x t ih =>
    intro h
    simp only [strchr] at h
    split at h
    · cases h
    · rename_i hx
      have hs : strchr t c = none := by
        cases hs : strchr t c with
        | none => rfl
        | some k => rw [hs] at h; cases h
      intro hmem
      rcases List.mem_cons.1 hmem with h1 | h1
      · exact hx h1.symm
      · exact ih hs h1

/-- C11, as amended: on a terminated buffer with content `t` and for a byte `c` other
than zero, `Contains(c)` returns the offset `i` exactly when `t[i] = c` and no smaller
offset holds `c`, and returns -1 exactly when `c` is not a byte of `t`; for `c = 0` it
returns `strlen()`, the offset of the terminator; `Contains('z')` on "Hello" returns -1. -/
theorem ContainsChar_first_occurrence (Len : Nat) (st : Storage) (h : Terminated Len st) :
    (∀ c, c ≠ 0 → ∀ i : Nat, (ContainsChar Len st c = (i : Int) ↔
        ((content Len st)[i]? = some c ∧ ∀ j, j < i → (content Len st)[j]? ≠ some c))) ∧
      (∀ c, c ≠ 0 → (ContainsChar Len st c = -1 ↔ c ∉ content Len st)) ∧
      ContainsChar Len st 0 = (strlen Len st : Int) ∧
      ContainsChar 5 (ofList hello) 122 = -1 := by
  refine ⟨?_, ?_, ?_, by decide⟩
  · intro c hc i
    unfold ContainsChar
    rw [c_str_eq_content Len st h]
    cases hs : strchr (content Len st) c with
    | none =>
      simp only
      constructor
      · intro hi
        omega
      · intro hi
        exact absurd (List.getElem?_mem hi.1) (strchr_none _ _ hs)
    | some k =>
      simp only
      obtain ⟨h1, h2⟩ := strchr_some c hc _ _ hs
      constructor
      · intro hi
        have hki : k = i := by omega
        subst hki
        exact ⟨h1, h2⟩
      · rintro ⟨h3, h4⟩
        have hki : k = i := by
          rcases Nat.lt_trichotomy k i with hlt | heq | hgt
          · exact absurd h1 (h4 k hlt)
          · exact heq
          · exact absurd h3 (h2 i hgt)
        rw [hki]
  · intro c hc
    unfold ContainsChar
    rw [c_str_eq_content Len st h]
    cases hs : strchr (content Len st) c with
    | none =>
      simp only [true_iff]
      exact strchr_none _ _ hs
    | some k =>
      simp only
      obtain ⟨h1, _⟩ := strchr_some c hc _ _ hs
      constructor
      · intro hi
        omega
      · intro hi
        exact absurd (List.getElem?_mem h1) hi
  · unfold ContainsChar
    rw [c_str_eq_content Len st h, strchr_zero _ (content_ne_zero Len st), content_length]

/-- The content "Hello" in a `String<5>`, searched for 'z', for 'l' and for zero. -/
theorem ContainsChar_first_occurrence_witness :
    Terminated 5 (ofList hello) ∧
      ((∀ c, c ≠ 0 → ∀ i : Nat, (ContainsChar 5 (ofList hello) c = (i : Int) ↔
          ((content 5 (ofList hello))[i]? = some c ∧
            ∀ j, j < i → (content 5 (ofList hello))[j]? ≠ some c))) ∧
        (∀ c, c ≠ 0 → (ContainsChar 5 (ofList hello) c = -1 ↔ c ∉ content 5 (ofList hello))) ∧
        ContainsChar 5 (ofList hello) 0 = (strlen 5 (ofList hello) : Int) ∧
        ContainsChar 5 (ofList hello) 122 = -1) :=
  ⟨by decide, ContainsChar_first_occurrence 5 (ofList hello) (by decide)⟩

/-- C11 as stated fails for the zero byte: on a `String<5>` holding "Hello", zero is not
a content byte, yet `Contains('\0')` returns 5, the offset of the terminator, which is
neither -1 nor an offset below `strlen()`. -/
theorem ContainsChar_zero_counterexample :
    Terminated 5 (ofList hello) ∧ (0 : Byte) ∉ content 5 (ofList hello) ∧
      strlen 5 (ofList hello) = 5 ∧ ContainsChar 5 (ofList hello) 0 = 5 ∧
      ¬ (ContainsChar 5 (ofList hello) 0 = -1 ↔ (0 : Byte) ∉ content 5 (ofList hello)) := by
  decide

/-! ## strlen, IsFull, EndsWith -/

theorem content_eq_takeWhile (Len : Nat) (st : Storage) :
    content Len st = ((List.range Len).map st).takeWhile (fun c => c ≠ 0) := by
  have hL := strlen_le Len st
  have hpre : ∀ c ∈ List.map st (List.range (strlen Len st)), (fun c => decide (c ≠ 0)) c = true := by
    intro c hc
    obtain ⟨j, hj, rfl⟩ := List.mem_map.1 hc
    simpa using strlen_ne_zero Len st j (List.mem_range.1 hj)
  unfold content
  by_cases hlt : strlen Len st < Len
  · have hz := strlen_zero Len st hlt
    have e : Len = strlen Len st + ((Len - strlen Len st - 1) + 1) := by omega
    conv_rhs => rw [e]
    rw [List.range_add, List.range_succ_eq_map, List.map_append, List.map_cons,
      List.map_cons, List.takeWhile_append_of_pos hpre, List.takeWhile_cons_of_neg]
    · simp
    · simpa using hz
  · have e : Len = strlen Len st := by omega
    conv_rhs => rw [e]
    have hnil : (List.map st (List.range (strlen Len st)) ++ []).takeWhile
        (fun c => decide (c ≠ 0)) = List.map st (List.range (strlen Len st)) ++
          List.takeWhile (fun c => decide (c ≠ 0)) [] :=
      List.takeWhile_append_of_pos hpre
    simpa using hnil.symm

/-- C12: `strlen()` is at most `Len` and is the offset of the first zero byte among the
first `Len` bytes of storage, or `Len` when none of them is zero, for every storage
content; `IsFull()` is true exactly when `strlen()` equals `Len`, that is when none of the
first `Len` bytes is zero. -/
theorem strlen_first_zero (Len : Nat) (st : Storage) :
    strlen Len st ≤ Len ∧
      strlen Len st = (((List.range Len).map st).takeWhile (fun c => c ≠ 0)).length ∧
      (∀ j, j < strlen Len st → st j ≠ 0) ∧
      (strlen Len st < Len → st (strlen Len st) = 0) ∧
      (IsFull Len st = true ↔ strlen Len st = Len) ∧
      (IsFull Len st = true ↔ ∀ j, j < Len → st j ≠ 0) := by
  have hL := strlen_le Len st
  refine ⟨hL, ?_, fun j hj => strlen_ne_zero Len st j hj, fun h => strlen_zero Len st h, ?_, ?_⟩
  · rw [← content_eq_takeWhile, content_length]
  · simp [IsFull]
  · simp only [IsFull, beq_iff_eq]
    constructor
    · intro h j hj
      exact strlen_ne_zero Len st j (by omega)
    · intro h
      by_contra hne
      exact h _ (by omega) (strlen_zero Len st (by omega))

/-- C13: `EndsWith(c)` is true exactly when `strlen()` is not zero and the byte at offset
`strlen() - 1`, the last byte of the content, equals `c`; on empty content it is false. -/
theorem EndsWith_iff (Len : Nat) (st : Storage) (c : Byte) :
    (EndsWith Len st c = true ↔ strlen Len st ≠ 0 ∧ st (strlen Len st - 1) = c) ∧
      (EndsWith Len st c = true ↔ (content Len st).getLast? = some c) ∧
      (strlen Len st = 0 → EndsWith Len st c = false) := by
  have h1 : EndsWith Len st c = true ↔ strlen Len st ≠ 0 ∧ st (strlen Len st - 1) = c := by
    simp [EndsWith]
  refine ⟨h1, ?_, ?_⟩
  · rw [h1, List.getLast?_eq_getElem?, content_length]
    by_cases h0 : strlen Len st = 0
    · have hnil : content Len st = [] := by
        unfold content
        rw [h0]
        rfl
      rw [hnil]
      simp [h0]
    · unfold content
      rw [List.getElem?_map, List.getElem?_range (by omega)]
      simp [h0]
  · intro h0
    simp [EndsWith, h0]

/-! ## The constructor, Clear and EnsureNullTerminated -/

theorem strlen_write_zero_zero (Len : Nat) (st : Storage) : strlen Len (write st 0 0) = 0 :=
  strlen_unique Len _ 0 (Nat.zero_le _) (fun j hj => absurd hj (by omega))
    (fun _ => write_same _ _ _)

/-- C14, as amended: the constructor writes `storage[0]` only. Right after it
`storage[0]` is zero, so the content is empty, and every other byte of storage holds what
the memory held before. -/
theorem construct_first_byte (Len : Nat) (st : Storage) :
    construct st 0 = 0 ∧ (∀ i, construct st (i + 1) = st (i + 1)) ∧
      IsEmpty (construct st) = true ∧ strlen Len (construct st) = 0 ∧
      content Len (construct st) = [] := by
  have h0 : strlen Len (construct st) = 0 := strlen_write_zero_zero Len st
  refine ⟨write_same _ _ _, fun i => write_other _ _ _ _ (by omega), ?_, h0, ?_⟩
  · simp [IsEmpty, construct]
  · unfold content
    rw [h0]
    rfl

/-- C14 as stated fails: a `String<4>` constructed over memory holding the bytes
'a', 'b', 'c', 'd', 'x' has `storage[1] = 'b'` after the constructor, so not every one of
its five bytes is zero. -/
theorem construct_not_zeroed :
    construct (ofList abcdx) 1 = 98 ∧
      ¬ ∀ i, i ≤ 4 → construct (ofList abcdx) i = 0 := by
  decide

/-- C15: `Clear()`, and likewise the constructor, leaves `storage[0] == 0`, `IsEmpty()`
true, `strlen()` zero and `EndsWith(c)` false for every `c`, and every byte of storage
past offset 0 as it was. -/
theorem Clear_frame (Len : Nat) (st : Storage) :
    (Clear st 0 = 0 ∧ IsEmpty (Clear st) = true ∧ strlen Len (Clear st) = 0 ∧
        (∀ c, EndsWith Len (Clear st) c = false) ∧ ∀ i, Clear st (i + 1) = st (i + 1)) ∧
      (construct st 0 = 0 ∧ IsEmpty (construct st) = true ∧ strlen Len (construct st) = 0 ∧
        (∀ c, EndsWith Len (construct st) c = false) ∧
        ∀ i, construct st (i + 1) = st (i + 1)) := by
  have key : ∀ s : Storage, write s 0 0 0 = 0 ∧ IsEmpty (write s 0 0) = true ∧
      strlen Len (write s 0 0) = 0 ∧ (∀ c, EndsWith Len (write s 0 0) c = false) ∧
      ∀ i, write s 0 0 (i + 1) = s (i + 1) := by
    intro s
    have h0 := strlen_write_zero_zero Len s
    refine ⟨write_same _ _ _, ?_, h0, fun c => ?_, fun i => write_other _ _ _ _ (by omega)⟩
    · simp [IsEmpty]
    · simp [EndsWith, h0]
  exact ⟨key st, key st⟩

/-- C16: `EnsureNullTerminated()` sets `storage[Len]` to zero and leaves every other byte
as it was, for every storage content; `strlen()` and the content are the same before and
after, and afterwards the buffer is terminated within its `Len + 1` bytes. -/
theorem EnsureNullTerminated_frame (Len : Nat) (st : Storage) :
    EnsureNullTerminated Len st Len = 0 ∧
      (∀ i, i ≠ Len → EnsureNullTerminated Len st i = st i) ∧
      strlen Len (EnsureNullTerminated Len st) = strlen Len st ∧
      content Len (EnsureNullTerminated Len st) = content Len st ∧
      Terminated Len (EnsureNullTerminated Len st) := by
  have hL := strlen_le Len st
  have hs : strlen Len (EnsureNullTerminated Len st) = strlen Len st :=
    strlen_write_zero_ge Len st Len hL
  refine ⟨write_same _ _ _, fun i hi => write_other _ _ _ _ hi, hs, ?_,
    ⟨Len, le_rfl, write_same _ _ _⟩⟩
  apply content_eq_of_agree Len _ _ hs
  intro j hj
  exact write_other _ _ _ _ (by omega)

/-! ## ConstantTimeEquals on arbitrary storage -/

/-- C17, as amended: for any two storage contents `ConstantTimeEquals` returns, and it
returns true exactly when the two storages hold the same byte at every offset
`0 .. Len - 1`; the byte at offset `Len` is not compared. -/
theorem ConstantTimeEquals_first_Len_bytes (Len : Nat) (a b : Storage) :
    ConstantTimeEquals Len a b = some (decide (∀ j, j < Len → a j = b j)) ∧
      ∀ v, ConstantTimeEquals Len a (write b Len v) = ConstantTimeEquals Len a b := by
  refine ⟨ConstantTimeEquals_eq Len a b, fun v => ?_⟩
  rw [ConstantTimeEquals_eq, ConstantTimeEquals_eq]
  congr 1
  apply decide_eq_decide.2
  constructor
  · intro h j hj
    rw [h j hj, write_other _ _ _ _ (by omega)]
  · intro h j hj
    rw [h j hj, write_other _ _ _ _ (by omega)]

/-- C17 as stated fails: two `String<4>` storages holding 'a', 'b', 'c', 'd' followed by
zero in one and by 'x' in the other differ at offset 4, and `ConstantTimeEquals` returns
true on them. -/
theorem ConstantTimeEquals_ignores_last_byte :
    ConstantTimeEquals 4 (ofList abcd) (ofList abcdx) = some true ∧
      ofList abcd 4 ≠ ofList abcdx 4 ∧
      ¬ (ConstantTimeEquals 4 (ofList abcd) (ofList abcdx) = some true ↔
          SameStorage 4 (ofList abcd) (ofList abcdx)) := by
  decide

/-! ## Zero-padded buffers -/

theorem ZeroPadded_terminated (Len : Nat) (st : Storage) (h : ZeroPadded Len st) :
    Terminated Len st :=
  ⟨strlen Len st, strlen_le Len st, h _ (strlen_le Len st) le_rfl⟩

theorem strcmp_eq_zero_iff : ∀ (x y : List Byte), strcmp x y = 0 ↔ x = y := by
  intro x
  induction x with
  | nil =>
    intro y
    cases y with
    | nil => simp [strcmp]
    | cons b ys => simp [strcmp]
  | cons a xs ih =>
    intro y
    cases y with
    | nil => simp [strcmp]
    | cons b ys =>
      simp only [strcmp]
      by_cases hab : a = b
      · rw [if_pos hab, ih ys]
        simp [hab]
      · rw [if_neg hab]
        have hne : ¬ (a :: xs = b :: ys) := fun he => hab (List.cons.inj he).1
        by_cases hlt : a < b
        · rw [if_pos hlt]
          exact ⟨fun h0 => absurd h0 (by omega), fun he => absurd he hne⟩
        · rw [if_neg hlt]
          exact ⟨fun h0 => absurd h0 (by omega), fun he => absurd he hne⟩

theorem content_eq_iff_of_padded (Len : Nat) (a b : Storage) (ha : ZeroPadded Len a)
    (hb : ZeroPadded Len b) :
    (∀ j, j < Len → a j = b j) ↔ content Len a = content Len b := by
  have hLa := strlen_le Len a
  constructor
  · intro h
    have hs : strlen Len b = strlen Len a := by
      apply strlen_unique Len b _ hLa
      · intro j hj
        rw [← h j (by omega)]
        exact strlen_ne_zero Len a j hj
      · intro hlt
        rw [← h _ hlt]
        exact strlen_zero Len a hlt
    apply content_eq_of_agree Len a b hs.symm
    intro j hj
    exact h j (by have := strlen_le Len b; omega)
  · intro h j hj
    have hlen : strlen Len a = strlen Len b := by
      rw [← content_length Len a, ← content_length Len b, h]
    by_cases hja : j < strlen Len a
    · have hget := congrArg (fun l => l[j]?) h
      simp only [content] at hget
      rw [List.getElem?_map, List.getElem?_map, List.getElem?_range hja,
        List.getElem?_range (by omega)] at hget
      simpa using hget
    · rw [ha j (by omega) (by omega), hb j (by omega) (by omega)]

theorem ConstantTimeEquals_of_padded (Len : Nat) (a b : Storage) (ha : ZeroPadded Len a)
    (hb : ZeroPadded Len b) :
    ConstantTimeEquals Len a b = some (decide (content Len a = content Len b)) := by
  rw [ConstantTimeEquals_eq]
  congr 1
  exact decide_eq_decide.2 (content_eq_iff_of_padded Len a b ha hb)

theorem Equals_storage (Len : Nat) (a b : Storage) (ha : Terminated Len a)
    (hb : Terminated Len b) :
    Equals Len a (bytes Len b) = decide (content Len a = content Len b) := by
  have hc : cstr (bytes Len b) = c_str Len b := rfl
  unfold Equals
  rw [hc, c_str_eq_content Len a ha, c_str_eq_content Len b hb]
  by_cases h : content Len a = content Len b
  · rw [decide_eq_true h]
    simpa using (strcmp_eq_zero_iff _ _).2 h
  · rw [decide_eq_false h]
    simpa using fun h0 => h ((strcmp_eq_zero_iff _ _).1 h0)

/-- C18: on two zero-padded buffers (every byte from offset `strlen()` through `Len` is
zero, which makes them terminated) `ConstantTimeEquals` returns what
`a.Equals(b.c_str())` returns, and that is true exactly when the two contents are equal. -/
theorem ConstantTimeEquals_eq_Equals (Len : Nat) (a b : Storage) (ha : ZeroPadded Len a)
    (hb : ZeroPadded Len b) :
    ConstantTimeEquals Len a b = some (Equals Len a (bytes Len b)) ∧
      (Equals Len a (bytes Len b) = true ↔ content Len a = content Len b) := by
  have hE := Equals_storage Len a b (ZeroPadded_terminated Len a ha)
    (ZeroPadded_terminated Len b hb)
  refine ⟨?_, ?_⟩
  · rw [hE]
    exact ConstantTimeEquals_of_padded Len a b ha hb
  · rw [hE]
    exact decide_eq_true_iff

/-- Two `String<4>` buffers after `CopyAndPad("abcd")` and `CopyAndPad("a")`. -/
theorem ConstantTimeEquals_eq_Equals_witness :
    (ZeroPadded 4 (CopyAndPad 4 (ofList abcdx) abcd) ∧
        ZeroPadded 4 (CopyAndPad 4 (ofList abcdx) letterA)) ∧
      (ConstantTimeEquals 4 (CopyAndPad 4 (ofList abcdx) abcd)
          (CopyAndPad 4 (ofList abcdx) letterA) =
          some (Equals 4 (CopyAndPad 4 (ofList abcdx) abcd)
            (bytes 4 (CopyAndPad 4 (ofList abcdx) letterA))) ∧
        (Equals 4 (CopyAndPad 4 (ofList abcdx) abcd)
            (bytes 4 (CopyAndPad 4 (ofList abcdx) letterA)) = true ↔
          content 4 (CopyAndPad 4 (ofList abcdx) abcd) =
            content 4 (CopyAndPad 4 (ofList abcdx) letterA))) :=
  ⟨⟨by decide, by decide⟩,
    ConstantTimeEquals_eq_Equals 4 (CopyAndPad 4 (ofList abcdx) abcd)
      (CopyAndPad 4 (ofList abcdx) letterA) (by decide) (by decide)⟩

/-! ## Zero padding under Clear, Truncate and Erase -/

theorem cstr_ne_zero (src : List Byte) : ∀ x ∈ cstr src, x ≠ 0 := by
  intro x hx
  have := List.mem_takeWhile_imp hx
  simpa using this

theorem CopyAndPad_ZeroPadded (Len : Nat) (st : Storage) (src : List Byte) :
    ZeroPadded Len (CopyAndPad Len st src) := by
  intro i hi hs
  rw [CopyAndPad_apply]
  by_cases h1 : i < min (cstr src).length Len
  · exfalso
    have hlt : strlen Len (CopyAndPad Len st src) < Len := by omega
    have hz := strlen_zero Len _ hlt
    rw [CopyAndPad_apply, if_pos (by omega)] at hz
    have hlen : strlen Len (CopyAndPad Len st src) < (cstr src).length := by omega
    rw [List.getD_eq_getElem _ _ hlen] at hz
    exact cstr_ne_zero src _ (List.getElem_mem hlen) hz
  · rw [if_neg h1, if_pos hi]

theorem ZeroPadded_shrink (Len : Nat) (st st' : Storage) (e : Nat) (h : ZeroPadded Len st)
    (he : strlen Len st' = e) (hz : st' e = 0) (hle : e ≤ strlen Len st)
    (hrest : ∀ j, e < j → st' j = st j) :
    ZeroPadded Len st' ↔ strlen Len st ≤ e + 1 := by
  have hL := strlen_le Len st
  constructor
  · intro hp
    by_contra hgt
    have h0 := hp (e + 1) (by omega) (by omega)
    rw [hrest (e + 1) (by omega)] at h0
    exact strlen_ne_zero Len st (e + 1) (by omega) h0
  · intro hle1 i hi hs
    by_cases hie : i = e
    · rw [hie]
      exact hz
    · rw [hrest i (by omega)]
      exact h i hi (by omega)

theorem ZeroPadded_write_zero (Len : Nat) (st : Storage) (k : Nat) (h : ZeroPadded Len st)
    (hk : k ≤ Len) : ZeroPadded Len (write st k 0) ↔ strlen Len st ≤ k + 1 := by
  have hL := strlen_le Len st
  by_cases hlt : k < strlen Len st
  · exact ZeroPadded_shrink Len st _ k h (strlen_write_zero_lt Len st k hlt) (write_same _ _ _)
      (by omega) (fun j hj => write_other _ _ _ _ (by omega))
  · have hst : write st k 0 = st := by
      funext j
      by_cases hj : j = k
      · rw [hj, write_same]
        exact (h k hk (by omega)).symm
      · exact write_other _ _ _ _ hj
    rw [hst]
    exact ⟨fun _ => by omega, fun _ => h⟩

/-- C19, as amended: on a zero-padded buffer `Clear()`, `Truncate(pos)` and
`Erase(pos, count)` (with `pos + count` at most the largest `size_t` value) keep the
bytes of the old content that lie behind the new terminator, so the buffer is still
zero-padded exactly when at most one content byte was cut off: after `Clear()` when
`strlen() ≤ 1`, after `Truncate(pos)` when `strlen() ≤ pos + 1`, after
`Erase(pos, count)` when `count ≤ 1` or `strlen() ≤ pos + 1`. `CopyAndPad` restores the
zero-padded state, and on two zero-padded buffers `ConstantTimeEquals` is true exactly
when the contents are equal. -/
theorem ZeroPadded_after_edit (w Len : Nat) (st : Storage) (hLen : Len < 2 ^ w)
    (h : ZeroPadded Len st) :
    (ZeroPadded Len (Clear st) ↔ strlen Len st ≤ 1) ∧
      (∀ pos, ZeroPadded Len (Truncate Len st pos) ↔ strlen Len st ≤ pos + 1) ∧
      (∀ pos count, pos + count ≤ 2 ^ w - 1 →
        ∃ st', Erase w Len st pos count = some st' ∧
          (ZeroPadded Len st' ↔ (count ≤ 1 ∨ strlen Len st ≤ pos + 1))) ∧
      (∀ src, ZeroPadded Len (CopyAndPad Len st src)) ∧
      (∀ b, ZeroPadded Len b →
        (ConstantTimeEquals Len st b = some true ↔ content Len st = content Len b)) := by
  have hL := strlen_le Len st
  refine ⟨?_, ?_, ?_, fun src => CopyAndPad_ZeroPadded Len st src, ?_⟩
  · exact ZeroPadded_write_zero Len st 0 h (Nat.zero_le _)
  · intro pos
    rw [Truncate_eq]
    by_cases hp : pos < Len
    · rw [if_pos hp]
      exact ZeroPadded_write_zero Len st pos h (by omega)
    · rw [if_neg hp]
      exact ⟨fun _ => by omega, fun _ => h⟩
  · intro pos count hsum
    have h2 := Nat.two_pow_pos w
    by_cases hpos : pos < strlen Len st
    · obtain ⟨st', hE, hz, hlow, hmid, hrest⟩ :=
        Erase_no_wrap w Len st pos count hLen (by omega) hpos
      obtain ⟨st'', hE', hlen, _⟩ :=
        Erase_strlen_content w Len st pos count hLen (by omega) hpos
      have hsame : st'' = st' := by
        rw [hE] at hE'
        exact (Option.some.inj hE').symm
      rw [hsame] at hlen
      refine ⟨st', hE, ?_⟩
      rw [ZeroPadded_shrink Len st st' _ h hlen hz (by omega) hrest]
      omega
    · refine ⟨st, ?_, ⟨fun _ => Or.inr (by omega), fun _ => h⟩⟩
      unfold Erase
      rw [EraseRun_out_of_range w Len st pos count (by omega)]
      rfl
  · intro b hb
    rw [ConstantTimeEquals_of_padded Len st b h hb]
    simp

/-- A `String<4>` holding "abcd" padded with zero bytes, on a 32-bit `size_t`. -/
theorem ZeroPadded_after_edit_witness :
    (4 < 2 ^ 32 ∧ ZeroPadded 4 (ofList abcd)) ∧
      ((ZeroPadded 4 (Clear (ofList abcd)) ↔ strlen 4 (ofList abcd) ≤ 1) ∧
        (∀ pos, ZeroPadded 4 (Truncate 4 (ofList abcd) pos) ↔
          strlen 4 (ofList abcd) ≤ pos + 1) ∧
        (∀ pos count, pos + count ≤ 2 ^ 32 - 1 →
          ∃ st', Erase 32 4 (ofList abcd) pos count = some st' ∧
            (ZeroPadded 4 st' ↔ (count ≤ 1 ∨ strlen 4 (ofList abcd) ≤ pos + 1))) ∧
        (∀ src, ZeroPadded 4 (CopyAndPad 4 (ofList abcd) src)) ∧
        (∀ b, ZeroPadded 4 b →
          (ConstantTimeEquals 4 (ofList abcd) b = some true ↔
            content 4 (ofList abcd) = content 4 b))) :=
  ⟨⟨by decide, by decide⟩, ZeroPadded_after_edit 32 4 (ofList abcd) (by decide) (by decide)⟩

/-- C19 as stated fails: a `String<4>` holding "abcd" is zero-padded, and it is no longer
zero-padded after `Clear()`, after `Truncate(1)` or after `Erase(1, 2)`; after
`Truncate(1)` its content is "a", the content of a buffer filled by `CopyAndPad("a")`,
and `ConstantTimeEquals` on the two returns false. -/
theorem ZeroPadded_not_preserved :
    ZeroPadded 4 (ofList abcd) ∧
      ¬ ZeroPadded 4 (Clear (ofList abcd)) ∧
      ¬ ZeroPadded 4 (Truncate 4 (ofList abcd) 1) ∧
      (Erase 32 4 (ofList abcd) 1 2).map (fun s => decide (ZeroPadded 4 s)) = some false ∧
      content 4 (Truncate 4 (ofList abcd) 1) =
        content 4 (CopyAndPad 4 (ofList abcd) letterA) ∧
      ConstantTimeEquals 4 (Truncate 4 (ofList abcd) 1)
        (CopyAndPad 4 (ofList abcd) letterA) = some false := by
  decide

end RRF
